import Mathlib

/-!
# Verification of the audio-video-sync offset-detection core

A shallow embedding of `src/audio_video_sync/sync.py`, `cli.py` and the
relevant slice of the ingestion path, over exact rational arithmetic
(`ℚ` stands in for the float values; a numpy division whose denominator
is zero produces a non-finite value, which we embed as `Option.none`).

Conventions of the embedding:
* a `SampleBuffer` is a `List ℚ`;
* `scipy.signal.correlate(a, b, mode='full')` is the discrete full
  cross-correlation, computed here (as scipy documents it) as the
  convolution of `a` with the reversal of `b`;
* `np.argmax` returns the FIRST index attaining the maximum, embedded
  by `argmaxIdx`;
* a chroma matrix (shape `12 × T`, as produced by the chroma transform)
  is represented by its list of `T` frame columns, so that
  `np.sum(chroma, axis=0)` is `List.map List.sum`.
-/

namespace AVSync

/-- Zero-extended indexing of a list by an integer: entries outside
`[0, length)` read as `0`.  This models reading a finite signal as a
finitely supported function on `ℤ`, which is how the full
cross-correlation treats its inputs. -/
def getZ (l : List ℚ) (i : ℤ) : ℚ :=
  if 0 ≤ i then l.getD i.toNat 0 else 0

/-- Pointwise sum of two lists, keeping the tail of the longer one
(the shorter list is implicitly zero-padded). -/
def listAdd : List ℚ → List ℚ → List ℚ
  | [], ys => ys
  | x :: xs, [] => x :: xs
  | x :: xs, y :: ys => (x + y) :: listAdd xs ys

/-- Discrete linear convolution of two finite sequences. -/
def conv : List ℚ → List ℚ → List ℚ
  | [], _ => []
  | x :: xs, b => listAdd (b.map (fun c => x * c)) (0 :: conv xs b)

/-- `scipy.signal.correlate(a, b, mode='full')`: the full linear
cross-correlation, equal to the convolution of `a` with `b` reversed. -/
def crossCorrelate (a b : List ℚ) : List ℚ :=
  conv a b.reverse

/-- Maximum entry of a list (junk value `0` on the empty list, which is
never used: numpy raises on an empty argmax). -/
def listMax : List ℚ → ℚ
  | [] => 0
  | [x] => x
  | x :: y :: t => max x (listMax (y :: t))

/-- `np.argmax`: the first index at which the maximum is attained. -/
def argmaxIdx : List ℚ → ℕ
  | [] => 0
  | [_] => 0
  | x :: y :: t => if listMax (y :: t) > x then argmaxIdx (y :: t) + 1 else 0

/-- `np.abs` applied elementwise. -/
def npAbs (l : List ℚ) : List ℚ :=
  l.map (fun v => |v|)

/-- `np.mean`: sum divided by length (numpy's mean of an empty array is
non-finite; the `ℚ` division by zero then yields `0`, which callers
below treat as the degenerate case). -/
def npMean (l : List ℚ) : ℚ :=
  l.sum / (l.length : ℚ)

/-- Result of one correlator: the detected offset in seconds and the
confidence, `none` encoding the non-finite float (NaN) that numpy
produces when the mean absolute correlation in the denominator is
zero. -/
structure CorrResult where
  offset : ℚ
  confidence : Option ℚ
deriving DecidableEq

/-- The textbook `n`-th entry of the full cross-correlation:
`corr[n] = Σ_i a[i] · b[i + len(b) - 1 - n]`. -/
def corrEntry (a b : List ℚ) (n : ℤ) : ℚ :=
  ∑ i in Finset.range a.length, getZ a i * getZ b ((i : ℤ) + b.length - 1 - n)

/-- The full cross-correlation written directly from its defining
summation formula, with output length `len(a) + len(b) - 1`.  This is
the specification-side description of `scipy.signal.correlate`; the
development proves it equal to the computational `crossCorrelate`. -/
def specFullCorr (a b : List ℚ) : List ℚ :=
  (List.range (a.length + b.length - 1)).map
    (fun n : ℕ => corrEntry a b (n : ℤ))

/-- Embeds `_correlate_raw` (sync.py lines 105-115): full
cross-correlation of the two sample buffers, peak at the first index of
maximum ABSOLUTE correlation, lag measured from `len(audio2) - 1`,
offset `lag / sr` (no hop factor), confidence
`|correlation[peak]| / mean(|correlation|)` (NaN, i.e. `none`, when the
mean is zero — the code has no guard). -/
def _correlate_raw (audio1 audio2 : List ℚ) (sr : ℚ) : CorrResult :=
  let correlation := crossCorrelate audio1 audio2
  let peak_idx := argmaxIdx (npAbs correlation)
  let zero_lag_idx : ℤ := (audio2.length : ℤ) - 1
  let lag_samples : ℤ := (peak_idx : ℤ) - zero_lag_idx
  let offset : ℚ := (lag_samples : ℚ) / sr
  let m := npMean (npAbs correlation)
  let confidence : Option ℚ :=
    if m = 0 then none else some (|correlation.getD peak_idx 0| / m)
  ⟨offset, confidence⟩

/-- Embeds `_correlate_chroma` (sync.py lines 85-102) from the chroma
matrices onward (the chroma transform itself is the external library
call `librosa.feature.chroma_cqt`; each matrix is passed here as its
list of frame columns).  `energy = np.sum(chroma, axis=0)` is the
per-frame sum over the 12 pitch-class bins; the peak is the first index
of maximum VALUE (not absolute value); the offset carries the
`hop_length` frame-to-seconds factor; the confidence numerator is the
raw (possibly negative) peak value.  `hop_length` is the module
constant `HOP_LENGTH`, passed explicitly. -/
def _correlate_chroma (chroma1 chroma2 : List (List ℚ)) (sr hop_length : ℚ) :
    CorrResult :=
  let energy1 := chroma1.map List.sum
  let energy2 := chroma2.map List.sum
  let correlation := crossCorrelate energy1 energy2
  let peak_idx := argmaxIdx correlation
  let zero_lag_idx : ℤ := (energy2.length : ℤ) - 1
  let lag_frames : ℤ := (peak_idx : ℤ) - zero_lag_idx
  let offset : ℚ := ((lag_frames : ℚ) * hop_length) / sr
  let m := npMean (npAbs correlation)
  let confidence : Option ℚ :=
    if m = 0 then none else some (correlation.getD peak_idx 0 / m)
  ⟨offset, confidence⟩

/-- Embeds the offset-selection step of `find_offset` (sync.py lines
77-82): the pure decision over the two correlator results.  `0.8` is
the waveform-preference margin. -/
def find_offset_select (raw_offset raw_conf chroma_offset chroma_conf : ℚ) :
    ℚ × ℚ × String :=
  if raw_conf > chroma_conf * (4 / 5) then (raw_offset, raw_conf, "waveform")
  else (chroma_offset, chroma_conf, "chromagram")

/-- Embeds the low-confidence check of `cli.py` line 72:
`if confidence < 3: logger.warning(...)`. -/
def cli_warns_low_confidence (confidence : ℚ) : Bool :=
  confidence < 3

/-- Embeds the control flow of `cli.py` lines 69-76 after `find_offset`
returns: `merge` is called unconditionally, whatever the confidence
(the warning does not abort the request). -/
def cli_proceeds_to_merge (_confidence : ℚ) : Bool :=
  true

/-- Embeds `np.frombuffer(stdout, dtype=np.float32)` at the level the
claims need: the byte stream is grouped into consecutive 4-byte
samples; numpy raises `ValueError` (here `none`) when the byte count is
not a multiple of the element size. -/
def bytesToF32 : List ℕ → Option (List (ℕ × ℕ × ℕ × ℕ))
  | [] => some []
  | b0 :: b1 :: b2 :: b3 :: rest =>
      (bytesToF32 rest).map (fun l => (b0, b1, b2, b3) :: l)
  | [_] => none
  | [_, _] => none
  | [_, _, _] => none

/-- Embeds `_extract_audio_ffmpeg` (sync.py lines 21-41).  The
subprocess outcome is passed in as data (`returncode`, raw `stdout`
bytes, decoded `stderr`): the function raises on a non-zero exit code
and otherwise converts the raw bytes to the sample buffer with
`np.frombuffer`; it performs no further validation of the buffer. -/
def _extract_audio_ffmpeg (returncode : ℤ) (stdout : List ℕ)
    (stderr : String) : Except String (List (ℕ × ℕ × ℕ × ℕ)) :=
  if returncode ≠ 0 then
    Except.error ("ffmpeg audio extraction failed: " ++ stderr)
  else
    match bytesToF32 stdout with
    | some samples => Except.ok samples
    | none => Except.error "buffer size must be a multiple of element size"

/-- A buffer delayed by `k` samples: `k` zero samples prepended. -/
def delayBy (k : ℕ) (x : List ℚ) : List ℚ :=
  List.replicate k 0 ++ x

/-- The (zero-padded) autocorrelation of a buffer at integer shift `s`:
`Σ_i x[i] · x[i - s]` with out-of-range reads as zero.  `s = 0` gives
the signal energy `Σ_i x[i]²`. -/
def autocorrShift (x : List ℚ) (s : ℤ) : ℚ :=
  ∑ i in Finset.range x.length, getZ x i * getZ x ((i : ℤ) - s)

/-- A buffer scaled by a constant gain `c`. -/
def scaleBuf (c : ℚ) (l : List ℚ) : List ℚ :=
  l.map (fun v => c * v)

/-- A chroma matrix scaled elementwise by a constant gain `c`. -/
def scaleChroma (c : ℚ) (m : List (List ℚ)) : List (List ℚ) :=
  m.map (fun col => col.map (fun v => c * v))

/-- Analysis window length in seconds (sync.py line 16). -/
def ANALYZE_DURATION : ℕ := 40

/-- Analysis sample rate in Hz (sync.py line 17). -/
def ANALYSIS_SR : ℚ := 22050

/-- Chroma hop length in samples (sync.py line 18). -/
def HOP_LENGTH : ℚ := 512

end AVSync

namespace AVSync

/-! ## Basic facts about zero-extended indexing -/

lemma getZ_nil (i : ℤ) : getZ [] i = 0 := by
  simp [getZ]

lemma getZ_natCast (l : List ℚ) (n : ℕ) : getZ l n = l.getD n 0 := by
  simp [getZ]

lemma getZ_neg (l : List ℚ) {i : ℤ} (h : i < 0) : getZ l i = 0 := by
  simp [getZ, not_le.mpr h]

lemma getZ_of_length_le (l : List ℚ) {i : ℤ} (h : (l.length : ℤ) ≤ i) :
    getZ l i = 0 := by
  have h0 : 0 ≤ i := le_trans (by positivity) h
  rw [getZ, if_pos h0]
  apply List.getD_eq_default
  omega

lemma getZ_cons (x : ℚ) (xs : List ℚ) (i : ℤ) :
    getZ (x :: xs) i = if i = 0 then x else getZ xs (i - 1) := by
  by_cases h0 : i = 0
  · rw [if_pos h0, h0]
    simp [getZ]
  · rw [if_neg h0]
    by_cases hneg : i < 0
    · rw [getZ_neg _ hneg, getZ_neg _ (by omega)]
    · rw [getZ, getZ, if_pos (by omega), if_pos (by omega)]
      have h2 : i.toNat = (i - 1).toNat + 1 := by omega
      rw [h2, List.getD_cons_succ]

lemma getZ_zero_cons (xs : List ℚ) (i : ℤ) :
    getZ ((0 : ℚ) :: xs) i = getZ xs (i - 1) := by
  rw [getZ_cons]
  split
  · rename_i h
    rw [h, getZ_neg _ (by norm_num)]
  · rfl

lemma getZ_listAdd (u v : List ℚ) (i : ℤ) :
    getZ (listAdd u v) i = getZ u i + getZ v i := by
  induction u generalizing v i with
  | nil => simp [listAdd, getZ_nil]
  | cons x xs ih =>
      cases v with
      | nil => simp [listAdd, getZ_nil]
      | cons y ys =>
          rw [listAdd, getZ_cons, getZ_cons, getZ_cons]
          split
          · rfl
          · exact ih ys (i - 1)

lemma getZ_map_mul (c : ℚ) (l : List ℚ) (i : ℤ) :
    getZ (l.map (fun v => c * v)) i = c * getZ l i := by
  induction l generalizing i with
  | nil => simp [getZ_nil]
  | cons x xs ih =>
      rw [List.map_cons, getZ_cons, getZ_cons]
      split
      · rfl
      · exact ih (i - 1)

lemma getZ_replicate_zero (k : ℕ) (i : ℤ) :
    getZ (List.replicate k (0 : ℚ)) i = 0 := by
  induction k generalizing i with
  | zero => simp [getZ_nil]
  | succ m ih =>
      rw [List.replicate_succ, getZ_cons]
      split
      · rfl
      · exact ih (i - 1)

lemma getZ_delayBy (k : ℕ) (x : List ℚ) (i : ℤ) :
    getZ (delayBy k x) i = getZ x (i - k) := by
  induction k generalizing i with
  | zero => simp [delayBy]
  | succ m ih =>
      rw [delayBy, List.replicate_succ, List.cons_append, getZ_cons]
      split
      · rename_i h
        rw [h, getZ_neg _ (by omega)]
      · rw [show (List.replicate m (0:ℚ) ++ x) = delayBy m x from rfl, ih]
        congr 1
        push_cast
        ring

/-! ## Lengths of the convolution -/

lemma listAdd_length (u v : List ℚ) :
    (listAdd u v).length = max u.length v.length := by
  induction u generalizing v with
  | nil => simp [listAdd]
  | cons x xs ih =>
      cases v with
      | nil => simp [listAdd]
      | cons y ys => simp [listAdd, ih, Nat.succ_max_succ]

lemma conv_length (a b : List ℚ) (ha : a ≠ []) (hb : b ≠ []) :
    (conv a b).length = a.length + b.length - 1 := by
  induction a with
  | nil => exact absurd rfl ha
  | cons x xs ih =>
      rw [conv, listAdd_length, List.length_map, List.length_cons]
      have hb1 : 1 ≤ b.length := List.length_pos.mpr hb
      cases xs with
      | nil => simp [conv]; omega
      | cons y ys =>
          rw [ih (by simp)]
          simp only [List.length_cons]
          omega

lemma crossCorrelate_length (a b : List ℚ) (ha : a ≠ []) (hb : b ≠ []) :
    (crossCorrelate a b).length = a.length + b.length - 1 := by
  rw [crossCorrelate, conv_length a b.reverse ha
    (by simpa using hb), List.length_reverse]

/-! ## The convolution computes the textbook correlation sum -/

lemma getZ_conv (a b : List ℚ) (n : ℤ) :
    getZ (conv a b) n
      = ∑ i in Finset.range a.length, getZ a i * getZ b (n - i) := by
  induction a generalizing n with
  | nil => simp [conv, getZ_nil]
  | cons x xs ih =>
      rw [conv, getZ_listAdd, getZ_map_mul, getZ_zero_cons, ih,
        List.length_cons, Finset.sum_range_succ']
      have h0 : getZ (x :: xs) ((0 : ℕ) : ℤ) * getZ b (n - (0 : ℕ)) =
          x * getZ b n := by
        rw [getZ_cons]
        norm_num
      rw [h0, add_comm]
      congr 1
      refine Finset.sum_congr rfl ?_
      intro i _
      rw [getZ_cons]
      have h1 : ((i + 1 : ℕ) : ℤ) ≠ 0 := by omega
      rw [if_neg h1]
      have h2 : ((i + 1 : ℕ) : ℤ) - 1 = (i : ℤ) := by push_cast; ring
      rw [h2]
      congr 2
      omega

lemma getZ_reverse (l : List ℚ) (i : ℤ) :
    getZ l.reverse i = getZ l ((l.length : ℤ) - 1 - i) := by
  by_cases h0 : 0 ≤ i
  · by_cases h1 : i < (l.length : ℤ)
    · have hti : i.toNat < l.length := by omega
      have htr : i.toNat < l.reverse.length := by simpa using hti
      rw [getZ, if_pos h0, getZ,
        if_pos (show (0:ℤ) ≤ (l.length : ℤ) - 1 - i by omega)]
      rw [List.getD_eq_getElem _ _ htr,
        List.getD_eq_getElem _ _
          (show ((l.length : ℤ) - 1 - i).toNat < l.length by omega)]
      rw [List.getElem_reverse]
      congr 1
      omega
    · rw [getZ_of_length_le _ (by simpa using not_lt.mp h1),
        getZ_neg _ (by omega)]
  · rw [getZ_neg _ (by omega), getZ_of_length_le _ (by omega)]

lemma crossCorrelate_getZ (a b : List ℚ) (n : ℤ) :
    getZ (crossCorrelate a b) n = corrEntry a b n := by
  rw [crossCorrelate, getZ_conv, corrEntry]
  refine Finset.sum_congr rfl ?_
  intro i _
  rw [getZ_reverse]
  congr 2
  ring

lemma eq_of_getZ (l1 l2 : List ℚ) (hlen : l1.length = l2.length)
    (h : ∀ n : ℕ, n < l1.length → getZ l1 n = getZ l2 n) : l1 = l2 := by
  apply List.ext_getElem hlen
  intro n h1 h2
  have hn := h n h1
  rw [getZ_natCast, getZ_natCast, List.getD_eq_getElem _ _ h1,
    List.getD_eq_getElem _ _ h2] at hn
  exact hn

lemma specFullCorr_length (a b : List ℚ) :
    (specFullCorr a b).length = a.length + b.length - 1 := by
  rw [specFullCorr, List.length_map, List.length_range]

lemma specFullCorr_getZ (a b : List ℚ) (n : ℕ)
    (hn : n < a.length + b.length - 1) :
    getZ (specFullCorr a b) n = corrEntry a b n := by
  have hn2 : n < (specFullCorr a b).length := by
    rw [specFullCorr_length]; exact hn
  rw [getZ_natCast, List.getD_eq_getElem _ _ hn2]
  simp only [specFullCorr, List.getElem_map, List.getElem_range]

/-- The computational cross-correlation (convolution with the reversed
second argument, as scipy computes it) coincides with the textbook
summation formula on non-empty inputs. -/
lemma crossCorrelate_eq_specFullCorr (a b : List ℚ) (ha : a ≠ [])
    (hb : b ≠ []) : crossCorrelate a b = specFullCorr a b := by
  apply eq_of_getZ
  · rw [crossCorrelate_length a b ha hb, specFullCorr_length]
  · intro n hn
    rw [crossCorrelate_length a b ha hb] at hn
    rw [crossCorrelate_getZ, specFullCorr_getZ a b n hn]

/-! ## Facts about the first-index argmax -/

lemma le_listMax (l : List ℚ) (x : ℚ) (hx : x ∈ l) : x ≤ listMax l := by
  induction l with
  | nil => cases hx
  | cons a t ih =>
      cases t with
      | nil =>
          rw [List.mem_singleton] at hx
          rw [hx, listMax]
      | cons b t2 =>
          rw [listMax]
          rcases List.mem_cons.mp hx with h | h
          · exact h ▸ le_max_left _ _
          · exact le_trans (ih h) (le_max_right _ _)

lemma listMax_mem (l : List ℚ) (hl : l ≠ []) : listMax l ∈ l := by
  induction l with
  | nil => exact absurd rfl hl
  | cons a t ih =>
      cases t with
      | nil => rw [listMax]; exact List.mem_singleton_self a
      | cons b t2 =>
          rw [listMax]
          rcases le_total (listMax (b :: t2)) a with h | h
          · rw [max_eq_left h]; exact List.mem_cons_self a _
          · rw [max_eq_right h]
            exact List.mem_cons_of_mem _ (ih (by simp))

lemma argmaxIdx_lt_length (l : List ℚ) (hl : l ≠ []) :
    argmaxIdx l < l.length := by
  induction l with
  | nil => exact absurd rfl hl
  | cons a t ih =>
      cases t with
      | nil => rw [argmaxIdx]; simp
      | cons b t2 =>
          rw [argmaxIdx]
          split
          · have := ih (by simp)
            simpa using Nat.succ_lt_succ this
          · simp

/-- `np.argmax` finds the position of a strict maximum: if entry `i`
strictly dominates every other entry, the first-index argmax is `i`. -/
lemma argmaxIdx_eq_of_strict (l : List ℚ) (i : ℕ) (hi : i < l.length)
    (h : ∀ j, j < l.length → j ≠ i → l.getD j 0 < l.getD i 0) :
    argmaxIdx l = i := by
  induction l generalizing i with
  | nil => simp at hi
  | cons a t ih =>
      cases t with
      | nil =>
          have hi0 : i = 0 := by simpa using Nat.lt_one_iff.mp (by simpa using hi)
          rw [hi0, argmaxIdx]
      | cons b t2 =>
          rw [argmaxIdx]
          cases i with
          | zero =>
              have hm : listMax (b :: t2) < a := by
                obtain ⟨j, hj, hjv⟩ :=
                  List.mem_iff_getElem.mp (listMax_mem (b :: t2) (by simp))
                have hlt := h (j + 1) (by simpa using hj) (by omega)
                rw [List.getD_cons_succ, List.getD_cons_zero,
                  List.getD_eq_getElem _ _ hj] at hlt
                rwa [← hjv]
              rw [if_neg (not_lt.mpr hm.le)]
          | succ k =>
              have hk : k < (b :: t2).length := by simpa using hi
              have htail : ∀ j, j < (b :: t2).length → j ≠ k →
                  (b :: t2).getD j 0 < (b :: t2).getD k 0 := by
                intro j hj hjk
                have := h (j + 1) (by simpa using hj) (by omega)
                rwa [List.getD_cons_succ, List.getD_cons_succ] at this
              have hgt : a < listMax (b :: t2) := by
                have h0 := h 0 (by simp) (by omega)
                rw [List.getD_cons_zero, List.getD_cons_succ] at h0
                refine lt_of_lt_of_le h0 (le_listMax _ _ ?_)
                rw [List.getD_eq_getElem _ _ hk]
                exact List.getElem_mem hk
              rw [if_pos hgt, ih k hk htail]

lemma listMax_map_mul (c : ℚ) (hc : 0 ≤ c) (l : List ℚ) :
    listMax (l.map (fun v => c * v)) = c * listMax l := by
  induction l with
  | nil => simp [listMax]
  | cons a t ih =>
      cases t with
      | nil => simp [listMax]
      | cons b t2 =>
          have h2 : listMax ((a :: b :: t2).map (fun v => c * v))
              = max (c * a) (listMax ((b :: t2).map (fun v => c * v))) := rfl
          rw [h2, ih, listMax]
          rcases le_total a (listMax (b :: t2)) with h | h
          · rw [max_eq_right h, max_eq_right (by nlinarith)]
          · rw [max_eq_left h, max_eq_left (by nlinarith)]

lemma argmaxIdx_map_mul (c : ℚ) (hc : 0 < c) (l : List ℚ) :
    argmaxIdx (l.map (fun v => c * v)) = argmaxIdx l := by
  induction l with
  | nil => rfl
  | cons a t ih =>
      cases t with
      | nil => rfl
      | cons b t2 =>
          have h2 : argmaxIdx ((a :: b :: t2).map (fun v => c * v))
              = if listMax ((b :: t2).map (fun v => c * v)) > c * a
                then argmaxIdx ((b :: t2).map (fun v => c * v)) + 1
                else 0 := rfl
          rw [h2, listMax_map_mul c hc.le, ih, argmaxIdx]
          by_cases h : listMax (b :: t2) > a
          · rw [if_pos ((mul_lt_mul_left hc).mpr h), if_pos h]
          · rw [if_neg (fun hcon => h ((mul_lt_mul_left hc).mp hcon)), if_neg h]

/-! ## Scaling lemmas for the correlation pipeline -/

lemma listAdd_map_mul (c : ℚ) (u v : List ℚ) :
    listAdd (u.map (fun x => c * x)) (v.map (fun x => c * x))
      = (listAdd u v).map (fun x => c * x) := by
  induction u generalizing v with
  | nil => simp [listAdd]
  | cons a t ih =>
      cases v with
      | nil => simp [listAdd]
      | cons b t2 =>
          rw [List.map_cons, List.map_cons, listAdd, listAdd, List.map_cons,
            ih, mul_add]

lemma conv_map_mul_left (c : ℚ) (a b : List ℚ) :
    conv (a.map (fun x => c * x)) b = (conv a b).map (fun x => c * x) := by
  induction a with
  | nil => rfl
  | cons x xs ih =>
      rw [List.map_cons, conv, conv, ih]
      have h1 : b.map (fun v => (fun x => c * x) x * v)
          = (b.map (fun v => x * v)).map (fun v => c * v) := by
        rw [List.map_map]
        refine List.map_congr_left ?_
        intro v _
        simp [mul_assoc]
      rw [h1, show ((0 : ℚ) :: (conv xs b).map (fun v => c * v))
          = ((0 : ℚ) :: conv xs b).map (fun v => c * v) by simp,
        listAdd_map_mul]

lemma conv_map_mul_right (c : ℚ) (a b : List ℚ) :
    conv a (b.map (fun x => c * x)) = (conv a b).map (fun x => c * x) := by
  induction a with
  | nil => rfl
  | cons x xs ih =>
      rw [conv, conv, ih]
      have h1 : (b.map (fun x => c * x)).map (fun v => x * v)
          = (b.map (fun v => x * v)).map (fun v => c * v) := by
        rw [List.map_map, List.map_map]
        refine List.map_congr_left ?_
        intro v _
        simp
        ring
      rw [h1, show ((0 : ℚ) :: (conv xs b).map (fun v => c * v))
          = ((0 : ℚ) :: conv xs b).map (fun v => c * v) by simp,
        listAdd_map_mul]

lemma crossCorrelate_scale_left (c : ℚ) (a b : List ℚ) :
    crossCorrelate (scaleBuf c a) b
      = (crossCorrelate a b).map (fun x => c * x) := by
  rw [crossCorrelate, crossCorrelate, scaleBuf, conv_map_mul_left]

lemma crossCorrelate_scale_right (c : ℚ) (a b : List ℚ) :
    crossCorrelate a (scaleBuf c b)
      = (crossCorrelate a b).map (fun x => c * x) := by
  rw [crossCorrelate, crossCorrelate, scaleBuf, ← List.map_reverse,
    conv_map_mul_right]

lemma npAbs_map_mul (c : ℚ) (hc : 0 ≤ c) (l : List ℚ) :
    npAbs (l.map (fun x => c * x)) = (npAbs l).map (fun x => c * x) := by
  rw [npAbs, npAbs, List.map_map, List.map_map]
  refine List.map_congr_left ?_
  intro v _
  simp [abs_mul, abs_of_nonneg hc]

lemma listSum_map_mul (c : ℚ) (l : List ℚ) :
    (l.map (fun x => c * x)).sum = c * l.sum := by
  induction l with
  | nil => simp
  | cons a t ih => simp [ih, mul_add]

lemma npMean_map_mul (c : ℚ) (l : List ℚ) :
    npMean (l.map (fun x => c * x)) = c * npMean l := by
  rw [npMean, npMean, listSum_map_mul, List.length_map, mul_div_assoc]

lemma npMean_npAbs_ne_zero (l : List ℚ) (hnz : ∃ v ∈ l, v ≠ 0) :
    npMean (npAbs l) ≠ 0 := by
  obtain ⟨v, hv, hv0⟩ := hnz
  have habs : |v| ∈ npAbs l := List.mem_map_of_mem _ hv
  have hpos : 0 < (npAbs l).sum := by
    have hle : |v| ≤ (npAbs l).sum := by
      refine List.single_le_sum ?_ _ habs
      intro x hx
      rw [npAbs] at hx
      obtain ⟨w, _, hw⟩ := List.mem_map.mp hx
      rw [← hw]
      exact abs_nonneg w
    exact lt_of_lt_of_le (abs_pos.mpr hv0) hle
  have hlen : 0 < ((npAbs l).length : ℚ) := by
    have : l ≠ [] := by rintro rfl; cases hv
    have h1 : 0 < l.length := List.length_pos.mpr this
    rw [npAbs, List.length_map]
    exact_mod_cast h1
  rw [npMean]
  positivity

/-! ## The autocorrelation is strictly maximal at zero shift

The key analytic fact behind the delay-recovery properties: for a
nonzero finitely supported signal, `|autocorrShift x s| < autocorrShift x 0`
whenever `s ≠ 0` (strict Cauchy–Schwarz, via the nonnegativity of
`Σ (x[i] ∓ x[i-s])²` and a minimal/maximal-support-index argument for
the equality case). -/

lemma getZ_ne_zero_mem_Icc (x : List ℚ) {i : ℤ} (h : getZ x i ≠ 0) :
    i ∈ Finset.Icc (0 : ℤ) ((x.length : ℤ) - 1) := by
  rw [Finset.mem_Icc]
  rcases lt_or_le i 0 with hneg | hge
  · exact absurd (getZ_neg x hneg) h
  · rcases lt_or_le i (x.length : ℤ) with hlt | hle2
    · omega
    · exact absurd (getZ_of_length_le x hle2) h

lemma sum_range_cast (m : ℕ) (f : ℤ → ℚ) :
    ∑ i in Finset.range m, f (i : ℤ)
      = ∑ i in Finset.Icc (0 : ℤ) ((m : ℤ) - 1), f i := by
  have himg : (Finset.range m).image (fun n : ℕ => (n : ℤ))
      = Finset.Icc (0 : ℤ) ((m : ℤ) - 1) := by
    ext j
    simp only [Finset.mem_image, Finset.mem_Icc, Finset.mem_range]
    constructor
    · rintro ⟨n, hn, rfl⟩; omega
    · rintro ⟨h0, h1⟩; exact ⟨j.toNat, by omega, by omega⟩
  rw [← himg, Finset.sum_image (fun a _ b _ h => by exact_mod_cast h)]

lemma autocorrShift_eq_Icc (x : List ℚ) (s : ℤ) :
    autocorrShift x s
      = ∑ i in Finset.Icc (0 : ℤ) ((x.length : ℤ) - 1),
          getZ x i * getZ x (i - s) := by
  rw [autocorrShift, sum_range_cast x.length (fun i => getZ x i * getZ x (i - s))]

lemma sum_getZ_extend (x : List ℚ) (g : ℤ → ℚ) (W : Finset ℤ)
    (hW : Finset.Icc (0 : ℤ) ((x.length : ℤ) - 1) ⊆ W) :
    ∑ i in W, getZ x i * g i
      = ∑ i in Finset.Icc (0 : ℤ) ((x.length : ℤ) - 1), getZ x i * g i := by
  symm
  apply Finset.sum_subset hW
  intro i _ hiNot
  have hz : getZ x i = 0 := by
    by_contra h
    exact hiNot (getZ_ne_zero_mem_Icc x h)
  rw [hz, zero_mul]

lemma sum_sq_getZ_W (x : List ℚ) (W : Finset ℤ)
    (hW : Finset.Icc (0 : ℤ) ((x.length : ℤ) - 1) ⊆ W) :
    ∑ i in W, (getZ x i) ^ 2 = autocorrShift x 0 := by
  have h1 : ∀ i ∈ W, (getZ x i) ^ 2 = getZ x i * getZ x (i - 0) :=
    fun i _ => by rw [sub_zero, sq]
  rw [Finset.sum_congr rfl h1,
    sum_getZ_extend x (fun i => getZ x (i - 0)) W hW, ← autocorrShift_eq_Icc]

lemma sum_shifted_sq (x : List ℚ) (s : ℤ) (W : Finset ℤ)
    (hW2 : ∀ i ∈ Finset.Icc (0 : ℤ) ((x.length : ℤ) - 1), i + s ∈ W) :
    ∑ i in W, (getZ x (i - s)) ^ 2 = autocorrShift x 0 := by
  have hinj : ∀ a ∈ W, ∀ b ∈ W, a - s = b - s → a = b := by
    intro a _ b _ h
    omega
  have himg : ∑ j in W.image (fun i => i - s), (getZ x j) ^ 2
      = ∑ i in W, (getZ x (i - s)) ^ 2 := Finset.sum_image hinj
  rw [← himg]
  apply sum_sq_getZ_W x (W.image (fun i => i - s))
  intro j hj
  rw [Finset.mem_image]
  exact ⟨j + s, hW2 j hj, by omega⟩

lemma no_shift_eigen (x : List ℚ) (hx : ∃ v ∈ x, v ≠ 0) {s : ℤ}
    (hs : s ≠ 0) (c : ℚ)
    (h : ∀ i ∈ Finset.Icc (0 : ℤ) ((x.length : ℤ) - 1),
      getZ x i = c * getZ x (i - s)) : False := by
  obtain ⟨v, hv, hv0⟩ := hx
  obtain ⟨jv, hjv, hjveq⟩ := List.mem_iff_getElem.mp hv
  have hFne : ((Finset.Icc (0 : ℤ) ((x.length : ℤ) - 1)).filter
      (fun i => getZ x i ≠ 0)).Nonempty := by
    refine ⟨(jv : ℤ), ?_⟩
    rw [Finset.mem_filter]
    have hgz : getZ x jv = v := by
      rw [getZ_natCast, List.getD_eq_getElem _ _ hjv, hjveq]
    exact ⟨Finset.mem_Icc.mpr (by omega), by rw [hgz]; exact hv0⟩
  rcases lt_or_gt_of_ne hs with hneg | hpos
  · have hj1 := Finset.max'_mem _ hFne
    rw [Finset.mem_filter] at hj1
    have heq := h _ hj1.1
    have hne2 : getZ x
        (((Finset.Icc (0 : ℤ) ((x.length : ℤ) - 1)).filter
          (fun i => getZ x i ≠ 0)).max' hFne - s) ≠ 0 := by
      intro h0
      rw [h0, mul_zero] at heq
      exact hj1.2 heq
    have hmem : (((Finset.Icc (0 : ℤ) ((x.length : ℤ) - 1)).filter
        (fun i => getZ x i ≠ 0)).max' hFne - s)
          ∈ (Finset.Icc (0 : ℤ) ((x.length : ℤ) - 1)).filter
            (fun i => getZ x i ≠ 0) :=
      Finset.mem_filter.mpr ⟨getZ_ne_zero_mem_Icc x hne2, hne2⟩
    have := Finset.le_max' _ _ hmem
    omega
  · have hj0 := Finset.min'_mem _ hFne
    rw [Finset.mem_filter] at hj0
    have heq := h _ hj0.1
    have hne2 : getZ x
        (((Finset.Icc (0 : ℤ) ((x.length : ℤ) - 1)).filter
          (fun i => getZ x i ≠ 0)).min' hFne - s) ≠ 0 := by
      intro h0
      rw [h0, mul_zero] at heq
      exact hj0.2 heq
    have hmem : (((Finset.Icc (0 : ℤ) ((x.length : ℤ) - 1)).filter
        (fun i => getZ x i ≠ 0)).min' hFne - s)
          ∈ (Finset.Icc (0 : ℤ) ((x.length : ℤ) - 1)).filter
            (fun i => getZ x i ≠ 0) :=
      Finset.mem_filter.mpr ⟨getZ_ne_zero_mem_Icc x hne2, hne2⟩
    have := Finset.min'_le _ _ hmem
    omega

lemma autocorrShift_zero_nonneg (x : List ℚ) : 0 ≤ autocorrShift x 0 := by
  rw [autocorrShift]
  apply Finset.sum_nonneg
  intro i _
  have h : ((i : ℤ)) - 0 = (i : ℤ) := sub_zero _
  rw [h]
  exact mul_self_nonneg _

lemma autocorrShift_zero_pos (x : List ℚ) (hx : ∃ v ∈ x, v ≠ 0) :
    0 < autocorrShift x 0 := by
  obtain ⟨v, hv, hv0⟩ := hx
  obtain ⟨jv, hjv, hjveq⟩ := List.mem_iff_getElem.mp hv
  rw [autocorrShift]
  apply Finset.sum_pos'
  · intro i _
    have h : ((i : ℤ)) - 0 = (i : ℤ) := sub_zero _
    rw [h]
    exact mul_self_nonneg _
  · refine ⟨jv, Finset.mem_range.mpr hjv, ?_⟩
    have h : ((jv : ℤ)) - 0 = (jv : ℤ) := sub_zero _
    rw [h]
    have hgz : getZ x jv = v := by
      rw [getZ_natCast, List.getD_eq_getElem _ _ hjv, hjveq]
    rw [hgz]
    exact mul_self_pos.mpr hv0

lemma autocorrShift_abs_lt (x : List ℚ) (hx : ∃ v ∈ x, v ≠ 0) {s : ℤ}
    (hs : s ≠ 0) : |autocorrShift x s| < autocorrShift x 0 := by
  have habs0 : (0 : ℤ) ≤ |s| := abs_nonneg s
  have habs1 : -|s| ≤ s := neg_abs_le s
  have habs2 : s ≤ |s| := le_abs_self s
  have hW1 : Finset.Icc (0 : ℤ) ((x.length : ℤ) - 1)
      ⊆ Finset.Icc (-|s|) ((x.length : ℤ) - 1 + |s|) := by
    intro i hi
    rw [Finset.mem_Icc] at *
    omega
  have hW2 : ∀ i ∈ Finset.Icc (0 : ℤ) ((x.length : ℤ) - 1),
      i + s ∈ Finset.Icc (-|s|) ((x.length : ℤ) - 1 + |s|) := by
    intro i hi
    rw [Finset.mem_Icc] at *
    omega
  have hSq := sum_sq_getZ_W x _ hW1
  have hSqs := sum_shifted_sq x s _ hW2
  have hCross : ∑ i in Finset.Icc (-|s|) ((x.length : ℤ) - 1 + |s|),
      getZ x i * getZ x (i - s) = autocorrShift x s := by
    rw [sum_getZ_extend x (fun i => getZ x (i - s)) _ hW1,
      ← autocorrShift_eq_Icc]
  have hminus : ∑ i in Finset.Icc (-|s|) ((x.length : ℤ) - 1 + |s|),
      (getZ x i - getZ x (i - s)) ^ 2
        = 2 * autocorrShift x 0 - 2 * autocorrShift x s := by
    have hexp : ∀ i ∈ Finset.Icc (-|s|) ((x.length : ℤ) - 1 + |s|),
        (getZ x i - getZ x (i - s)) ^ 2
          = (getZ x i) ^ 2 - 2 * (getZ x i * getZ x (i - s))
            + (getZ x (i - s)) ^ 2 := fun i _ => by ring
    rw [Finset.sum_congr rfl hexp, Finset.sum_add_distrib,
      Finset.sum_sub_distrib, ← Finset.mul_sum, hSq, hSqs, hCross]
    ring
  have hplus : ∑ i in Finset.Icc (-|s|) ((x.length : ℤ) - 1 + |s|),
      (getZ x i + getZ x (i - s)) ^ 2
        = 2 * autocorrShift x 0 + 2 * autocorrShift x s := by
    have hexp : ∀ i ∈ Finset.Icc (-|s|) ((x.length : ℤ) - 1 + |s|),
        (getZ x i + getZ x (i - s)) ^ 2
          = (getZ x i) ^ 2 + 2 * (getZ x i * getZ x (i - s))
            + (getZ x (i - s)) ^ 2 := fun i _ => by ring
    rw [Finset.sum_congr rfl hexp, Finset.sum_add_distrib,
      Finset.sum_add_distrib, ← Finset.mul_sum, hSq, hSqs, hCross]
    ring
  have hmnn : 0 ≤ ∑ i in Finset.Icc (-|s|) ((x.length : ℤ) - 1 + |s|),
      (getZ x i - getZ x (i - s)) ^ 2 :=
    Finset.sum_nonneg fun i _ => sq_nonneg _
  have hpnn : 0 ≤ ∑ i in Finset.Icc (-|s|) ((x.length : ℤ) - 1 + |s|),
      (getZ x i + getZ x (i - s)) ^ 2 :=
    Finset.sum_nonneg fun i _ => sq_nonneg _
  have hub : autocorrShift x s ≤ autocorrShift x 0 := by linarith
  have hlb : -autocorrShift x 0 ≤ autocorrShift x s := by linarith
  have hne1 : autocorrShift x s ≠ autocorrShift x 0 := by
    intro he
    have hz : ∑ i in Finset.Icc (-|s|) ((x.length : ℤ) - 1 + |s|),
        (getZ x i - getZ x (i - s)) ^ 2 = 0 := by
      rw [hminus, he]
      ring
    have hall := (Finset.sum_eq_zero_iff_of_nonneg
      (fun i _ => sq_nonneg _)).mp hz
    refine no_shift_eigen x hx hs 1 ?_
    intro i hi
    have h0 := hall i (hW1 hi)
    have h1 : getZ x i - getZ x (i - s) = 0 :=
      (pow_eq_zero_iff two_ne_zero).mp h0
    rw [one_mul]
    linarith
  have hne2 : autocorrShift x s ≠ -autocorrShift x 0 := by
    intro he
    have hz : ∑ i in Finset.Icc (-|s|) ((x.length : ℤ) - 1 + |s|),
        (getZ x i + getZ x (i - s)) ^ 2 = 0 := by
      rw [hplus, he]
      ring
    have hall := (Finset.sum_eq_zero_iff_of_nonneg
      (fun i _ => sq_nonneg _)).mp hz
    refine no_shift_eigen x hx hs (-1) ?_
    intro i hi
    have h0 := hall i (hW1 hi)
    have h1 : getZ x i + getZ x (i - s) = 0 :=
      (pow_eq_zero_iff two_ne_zero).mp h0
    linarith
  rw [abs_lt]
  exact ⟨lt_of_le_of_ne hlb (fun he => hne2 he.symm), lt_of_le_of_ne hub hne1⟩

/-! ## Correlation of a signal with its own delayed copy -/

lemma delayBy_length (k : ℕ) (x : List ℚ) :
    (delayBy k x).length = k + x.length := by
  rw [delayBy, List.length_append, List.length_replicate]

lemma delayBy_ne_nil (k : ℕ) (x : List ℚ) (hx : x ≠ []) :
    delayBy k x ≠ [] := by
  intro h
  have := congrArg List.length h
  rw [delayBy_length] at this
  simp only [List.length_nil] at this
  exact hx (List.length_eq_zero.mp (by omega))

lemma crossCorrelate_delay_entry (x : List ℚ) (k : ℕ) (n : ℤ) :
    getZ (crossCorrelate x (delayBy k x)) n
      = autocorrShift x (n - ((x.length : ℤ) - 1)) := by
  rw [crossCorrelate_getZ, corrEntry, autocorrShift]
  refine Finset.sum_congr rfl ?_
  intro i _
  rw [delayBy_length, getZ_delayBy]
  congr 1
  push_cast
  ring_nf

lemma sum_range_shift_getZ (x : List ℚ) (k : ℕ) (g : ℤ → ℚ) :
    ∑ i in Finset.range (k + x.length), getZ x ((i : ℤ) - k) * g i
      = ∑ i in Finset.range x.length, getZ x i * g ((i : ℤ) + k) := by
  induction k generalizing g with
  | zero => simp
  | succ m ih =>
      rw [show m + 1 + x.length = (m + x.length) + 1 from by omega,
        Finset.sum_range_succ']
      have h0 : getZ x (((0 : ℕ) : ℤ) - ((m + 1 : ℕ) : ℤ))
          * g ((0 : ℕ) : ℤ) = 0 := by
        rw [getZ_neg x (by push_cast; omega), zero_mul]
      rw [h0, add_zero]
      have hsummand : ∀ i ∈ Finset.range (m + x.length),
          getZ x (((i + 1 : ℕ) : ℤ) - ((m + 1 : ℕ) : ℤ)) * g ((i + 1 : ℕ) : ℤ)
            = getZ x ((i : ℤ) - (m : ℤ)) * (fun j => g (j + 1)) (i : ℤ) := by
        intro i _
        have harg : ((i + 1 : ℕ) : ℤ) - ((m + 1 : ℕ) : ℤ)
            = (i : ℤ) - (m : ℤ) := by push_cast; ring
        have harg2 : ((i + 1 : ℕ) : ℤ) = (i : ℤ) + 1 := by push_cast; ring
        rw [harg, harg2]
      rw [Finset.sum_congr rfl hsummand, ih (fun j => g (j + 1))]
      refine Finset.sum_congr rfl ?_
      intro i _
      have harg : ((i : ℤ) + (m : ℤ)) + 1 = (i : ℤ) + ((m + 1 : ℕ) : ℤ) := by
        omega
      show getZ x (i : ℤ) * g (((i : ℤ) + (m : ℤ)) + 1)
        = getZ x (i : ℤ) * g ((i : ℤ) + ((m + 1 : ℕ) : ℤ))
      rw [harg]

lemma crossCorrelate_delayLeft_entry (x : List ℚ) (k : ℕ) (n : ℤ) :
    getZ (crossCorrelate (delayBy k x) x) n
      = autocorrShift x (n - ((x.length : ℤ) - 1) - k) := by
  rw [crossCorrelate_getZ, corrEntry, delayBy_length]
  have hsummand : ∀ i ∈ Finset.range (k + x.length),
      getZ (delayBy k x) i * getZ x ((i : ℤ) + (x.length : ℤ) - 1 - n)
        = getZ x ((i : ℤ) - k)
          * (fun j => getZ x (j + (x.length : ℤ) - 1 - n)) (i : ℤ) := by
    intro i _
    rw [getZ_delayBy]
  rw [Finset.sum_congr rfl hsummand,
    sum_range_shift_getZ x k (fun j => getZ x (j + (x.length : ℤ) - 1 - n)),
    autocorrShift]
  refine Finset.sum_congr rfl ?_
  intro i _
  show getZ x (i : ℤ) * getZ x (((i : ℤ) + (k : ℤ)) + (x.length : ℤ) - 1 - n)
    = getZ x (i : ℤ) * getZ x ((i : ℤ) - (n - ((x.length : ℤ) - 1) - (k : ℤ)))
  congr 1
  ring

lemma npAbs_getD (l : List ℚ) (n : ℕ) :
    (npAbs l).getD n 0 = |l.getD n 0| := by
  induction l generalizing n with
  | nil => simp [npAbs]
  | cons a t ih =>
      cases n with
      | zero => simp [npAbs]
      | succ m =>
          have hcons : npAbs (a :: t) = |a| :: npAbs t := rfl
          rw [hcons, List.getD_cons_succ, List.getD_cons_succ, ih]

lemma npAbs_length (l : List ℚ) : (npAbs l).length = l.length := by
  rw [npAbs, List.length_map]

lemma argmax_delayRight (x : List ℚ) (hx : ∃ v ∈ x, v ≠ 0) (k : ℕ) :
    argmaxIdx (npAbs (crossCorrelate x (delayBy k x))) = x.length - 1 := by
  have hxne : x ≠ [] := by
    rintro rfl
    obtain ⟨v, hv, _⟩ := hx
    cases hv
  have hL : 1 ≤ x.length := List.length_pos.mpr hxne
  have hlen : (crossCorrelate x (delayBy k x)).length
      = x.length + (k + x.length) - 1 := by
    rw [crossCorrelate_length _ _ hxne (delayBy_ne_nil k x hxne),
      delayBy_length]
  have hA0 := autocorrShift_zero_pos x hx
  apply argmaxIdx_eq_of_strict
  · rw [npAbs_length, hlen]
    omega
  · intro j hj hji
    rw [npAbs_length, hlen] at hj
    rw [npAbs_getD, npAbs_getD, ← getZ_natCast, ← getZ_natCast,
      crossCorrelate_delay_entry, crossCorrelate_delay_entry]
    have hcast : ((x.length - 1 : ℕ) : ℤ) - ((x.length : ℤ) - 1) = 0 := by
      omega
    rw [hcast, abs_of_pos hA0]
    exact autocorrShift_abs_lt x hx (by omega)

lemma argmax_delayLeft (x : List ℚ) (hx : ∃ v ∈ x, v ≠ 0) (k : ℕ) :
    argmaxIdx (npAbs (crossCorrelate (delayBy k x) x)) = x.length - 1 + k := by
  have hxne : x ≠ [] := by
    rintro rfl
    obtain ⟨v, hv, _⟩ := hx
    cases hv
  have hL : 1 ≤ x.length := List.length_pos.mpr hxne
  have hlen : (crossCorrelate (delayBy k x) x).length
      = (k + x.length) + x.length - 1 := by
    rw [crossCorrelate_length _ _ (delayBy_ne_nil k x hxne) hxne,
      delayBy_length]
  have hA0 := autocorrShift_zero_pos x hx
  apply argmaxIdx_eq_of_strict
  · rw [npAbs_length, hlen]
    omega
  · intro j hj hji
    rw [npAbs_length, hlen] at hj
    rw [npAbs_getD, npAbs_getD, ← getZ_natCast, ← getZ_natCast,
      crossCorrelate_delayLeft_entry, crossCorrelate_delayLeft_entry]
    have hcast : ((x.length - 1 + k : ℕ) : ℤ) - ((x.length : ℤ) - 1) - (k : ℤ)
        = 0 := by omega
    rw [hcast, abs_of_pos hA0]
    exact autocorrShift_abs_lt x hx (by omega)

lemma scaleBuf_length (c : ℚ) (l : List ℚ) :
    (scaleBuf c l).length = l.length := by
  rw [scaleBuf, List.length_map]

lemma getD_map_mul (c : ℚ) (l : List ℚ) (n : ℕ) :
    (l.map (fun x => c * x)).getD n 0 = c * l.getD n 0 := by
  have h := getZ_map_mul c l n
  rwa [getZ_natCast, getZ_natCast] at h

lemma energy_scaleChroma (c : ℚ) (m : List (List ℚ)) :
    (scaleChroma c m).map List.sum
      = (m.map List.sum).map (fun x => c * x) := by
  rw [scaleChroma, List.map_map, List.map_map]
  refine List.map_congr_left ?_
  intro col _
  exact listSum_map_mul c col

/-- C1: the offset selector returns the raw-waveform triple exactly
when `raw_conf > 0.8 * chroma_conf`, otherwise (in particular at the
exact boundary `raw_conf = 0.8 * chroma_conf`) the chromagram triple;
it always returns one of its two input results unchanged. -/
theorem find_offset_select_spec (ro rc co cc : ℚ) :
    (find_offset_select ro rc co cc = (ro, rc, "waveform") ↔
      rc > cc * (4 / 5)) ∧
    (find_offset_select ro rc co cc = (co, cc, "chromagram") ↔
      ¬ rc > cc * (4 / 5)) ∧
    (rc = cc * (4 / 5) →
      find_offset_select ro rc co cc = (co, cc, "chromagram")) ∧
    (find_offset_select ro rc co cc = (ro, rc, "waveform") ∨
      find_offset_select ro rc co cc = (co, cc, "chromagram")) := by
  have hs : ("waveform" : String) ≠ "chromagram" := by decide
  by_cases h : rc > cc * (4 / 5)
  · refine ⟨?_, ?_, ?_, ?_⟩
    · simp [find_offset_select, h]
    · constructor
      · intro heq
        exfalso
        rw [find_offset_select, if_pos h] at heq
        exact hs (congrArg (fun t => t.2.2) heq)
      · intro hc; exact absurd h hc
    · intro heq; exfalso; rw [heq] at h; linarith
    · left; simp [find_offset_select, h]
  · refine ⟨?_, ?_, ?_, ?_⟩
    · constructor
      · intro heq
        exfalso
        rw [find_offset_select, if_neg h] at heq
        exact hs (congrArg (fun t => t.2.2) heq).symm
      · intro hc; exact absurd hc h
    · simp [find_offset_select, h]
    · intro _; simp [find_offset_select, h]
    · right; simp [find_offset_select, h]

/-- Witness for C1: at `raw_conf = 10, chroma_conf = 9` the selector
picks the waveform result, and at the exact boundary
`raw_conf = 8, chroma_conf = 10` it picks the chromagram result. -/
theorem find_offset_select_spec_witness :
    find_offset_select 1 10 2 9 = (1, 10, "waveform") ∧
    find_offset_select 1 8 2 10 = (2, 10, "chromagram") := by
  constructor
  · exact (find_offset_select_spec 1 10 2 9).1.mpr (by norm_num)
  · exact (find_offset_select_spec 1 8 2 10).2.2.1 (by norm_num)

/-- C2 (refuting the claimed guard): on pure-silence inputs both
correlators divide the peak correlation by a zero mean absolute
correlation; numpy evaluates this `0 / 0` to NaN (embedded `none`), so
the confidence is NOT a finite value — the code contains no
divide-by-zero guard.  Evaluated at two 4-sample zero buffers and, for
the chroma path, the corresponding all-zero 12-bin chroma frames. -/
theorem silence_confidence_is_nan :
    (_correlate_raw [0, 0, 0, 0] [0, 0, 0, 0] ANALYSIS_SR).confidence
      = none ∧
    (_correlate_chroma
        (List.replicate 4 (List.replicate 12 (0 : ℚ)))
        (List.replicate 4 (List.replicate 12 (0 : ℚ)))
        ANALYSIS_SR HOP_LENGTH).confidence = none := by
  constructor <;>
    norm_num [_correlate_raw, _correlate_chroma, crossCorrelate, conv,
      listAdd, npAbs, npMean, argmaxIdx, listMax, ANALYSIS_SR, HOP_LENGTH,
      List.replicate]

/-- C3: on non-empty pitch profiles (the per-frame sums over the 12
chroma bins of each input matrix), `_correlate_chroma` computes the
full linear cross-correlation — of length `len1 + len2 - 1` and given
entrywise by the textbook summation formula `specFullCorr` — picks the
peak as the first index of the maximum correlation VALUE (`argmaxIdx`
applied to the correlation itself, not to its absolute values), and
returns `offset = (peak_index - (len(profile2) - 1)) * hop_length / sr`. -/
theorem correlate_chroma_formula (chroma1 chroma2 : List (List ℚ))
    (sr hop : ℚ) (h1 : chroma1 ≠ []) (h2 : chroma2 ≠ []) :
    (_correlate_chroma chroma1 chroma2 sr hop).offset
      = ((((argmaxIdx (specFullCorr (chroma1.map List.sum)
              (chroma2.map List.sum)) : ℤ)
          - (((chroma2.map List.sum).length : ℤ) - 1) : ℤ) : ℚ) * hop) / sr ∧
    (specFullCorr (chroma1.map List.sum) (chroma2.map List.sum)).length
      = (chroma1.map List.sum).length + (chroma2.map List.sum).length - 1 := by
  have he := crossCorrelate_eq_specFullCorr (chroma1.map List.sum)
    (chroma2.map List.sum) (by simpa using h1) (by simpa using h2)
  constructor
  · simp only [_correlate_chroma, he]
  · exact specFullCorr_length _ _

/-- Witness for C3 at the concrete chroma matrices
`[[1,2],[3,4],[5,6]]` and `[[1,1],[2,0]]` (three resp. two frames of
two bins), hop `512`, rate `22050`. -/
theorem correlate_chroma_formula_witness :
    ([[1, 2], [3, 4], [5, 6]] : List (List ℚ)) ≠ [] ∧
    ([[1, 1], [2, 0]] : List (List ℚ)) ≠ [] ∧
    (_correlate_chroma [[1, 2], [3, 4], [5, 6]] [[1, 1], [2, 0]]
        ANALYSIS_SR HOP_LENGTH).offset
      = ((((argmaxIdx (specFullCorr
              (([[1, 2], [3, 4], [5, 6]] : List (List ℚ)).map List.sum)
              (([[1, 1], [2, 0]] : List (List ℚ)).map List.sum)) : ℤ)
          - (((([[1, 1], [2, 0]] : List (List ℚ)).map List.sum).length : ℤ)
              - 1) : ℤ) : ℚ) * HOP_LENGTH) / ANALYSIS_SR :=
  ⟨by simp, by simp,
    (correlate_chroma_formula [[1, 2], [3, 4], [5, 6]] [[1, 1], [2, 0]]
      ANALYSIS_SR HOP_LENGTH (by simp) (by simp)).1⟩

/-- C4: on non-empty sample buffers, `_correlate_raw` picks the peak as
the first index of the maximum ABSOLUTE value of the full
cross-correlation (given by the textbook summation formula
`specFullCorr`), returns `offset = (peak_index - (len(audio2) - 1)) / sr`
with no hop factor, and returns confidence
`|correlation[peak]| / mean(|correlation|)` whenever that mean is
non-zero (and the non-finite `none` when it is zero). -/
theorem correlate_raw_formula (audio1 audio2 : List ℚ) (sr : ℚ)
    (h1 : audio1 ≠ []) (h2 : audio2 ≠ []) :
    (_correlate_raw audio1 audio2 sr).offset
      = ((((argmaxIdx (npAbs (specFullCorr audio1 audio2)) : ℤ)
          - ((audio2.length : ℤ) - 1) : ℤ) : ℚ)) / sr ∧
    (specFullCorr audio1 audio2).length
      = audio1.length + audio2.length - 1 ∧
    (npMean (npAbs (specFullCorr audio1 audio2)) ≠ 0 →
      (_correlate_raw audio1 audio2 sr).confidence
        = some (|(specFullCorr audio1 audio2).getD
              (argmaxIdx (npAbs (specFullCorr audio1 audio2))) 0|
            / npMean (npAbs (specFullCorr audio1 audio2)))) ∧
    (npMean (npAbs (specFullCorr audio1 audio2)) = 0 →
      (_correlate_raw audio1 audio2 sr).confidence = none) := by
  have he := crossCorrelate_eq_specFullCorr audio1 audio2 h1 h2
  refine ⟨?_, specFullCorr_length _ _, ?_, ?_⟩
  · simp only [_correlate_raw, he]
  · intro hm
    simp only [_correlate_raw, he, if_neg hm]
  · intro hm
    simp only [_correlate_raw, he, if_pos hm]

/-- Witness for C4 at the concrete buffers `[1, 2]` and `[3, 4]` at
rate `22050`. -/
theorem correlate_raw_formula_witness :
    ([1, 2] : List ℚ) ≠ [] ∧ ([3, 4] : List ℚ) ≠ [] ∧
    (_correlate_raw [1, 2] [3, 4] ANALYSIS_SR).offset
      = ((((argmaxIdx (npAbs (specFullCorr [1, 2] [3, 4])) : ℤ)
          - ((([3, 4] : List ℚ).length : ℤ) - 1) : ℤ) : ℚ)) / ANALYSIS_SR :=
  ⟨by simp, by simp,
    (correlate_raw_formula [1, 2] [3, 4] ANALYSIS_SR
      (by simp) (by simp)).1⟩

/-- C5 counterexample: for `x = [1]` and delay `k = 1` sample, the
raw-waveform estimator on `(A = x, B = x delayed by k)` returns
`offset = -(1/22050)`, which is NEGATIVE and differs from the claimed
`k/sr = 1/22050` by two samples' time — the claim's signs are inverted
relative to the code (a delayed mastered track must be trimmed, which
the code signals with a negative offset). -/
theorem raw_delay_sign_counterexample :
    (_correlate_raw [1] (delayBy 1 [1]) ANALYSIS_SR).offset = -(1 / 22050) ∧
    (_correlate_raw [1] (delayBy 1 [1]) ANALYSIS_SR).offset < 0 := by
  have hd : delayBy 1 [(1 : ℚ)] = [0, 1] := by
    simp [delayBy, List.replicate]
  constructor <;>
    · rw [hd]
      norm_num [_correlate_raw, crossCorrelate, conv, listAdd, npAbs,
        npMean, argmaxIdx, listMax, ANALYSIS_SR]

/-- C5 amended: for every nonzero signal `x`, every delay `k > 0` and
every rate `sr > 0`: if the mastered buffer is `x` delayed by `k`
samples (`B = k zeros ++ x`), the raw estimator returns exactly
`offset = -(k/sr) < 0`; if instead the REFERENCE is the delayed copy
and the mastered buffer is `x` — i.e. `B` is `A` with its `k` (silent)
leading samples trimmed, `B` started later — it returns exactly
`offset = k/sr > 0`.  Magnitude `k/sr` is recovered exactly (well
within one sample's resolution); the signs are the opposite of the
original claim's. -/
theorem raw_delay_sign (x : List ℚ) (k : ℕ) (sr : ℚ) (hk : 0 < k)
    (hsr : 0 < sr) (hx : ∃ v ∈ x, v ≠ 0) :
    (_correlate_raw x (delayBy k x) sr).offset = -((k : ℚ) / sr) ∧
    (_correlate_raw x (delayBy k x) sr).offset < 0 ∧
    (_correlate_raw (delayBy k x) x sr).offset = (k : ℚ) / sr ∧
    0 < (_correlate_raw (delayBy k x) x sr).offset := by
  have hxne : x ≠ [] := by
    rintro rfl
    obtain ⟨v, hv, _⟩ := hx
    cases hv
  have hL : 1 ≤ x.length := List.length_pos.mpr hxne
  have hoff1 : (_correlate_raw x (delayBy k x) sr).offset = -((k : ℚ) / sr) := by
    simp only [_correlate_raw]
    rw [argmax_delayRight x hx k, delayBy_length]
    have hlag : ((x.length - 1 : ℕ) : ℤ) - ((k + x.length : ℕ) : ℤ) + 1
        = -(k : ℤ) := by omega
    rw [show ((x.length - 1 : ℕ) : ℤ) - (((k + x.length : ℕ) : ℤ) - 1)
        = -(k : ℤ) by omega]
    push_cast
    rw [neg_div]
  have hoff2 : (_correlate_raw (delayBy k x) x sr).offset = (k : ℚ) / sr := by
    simp only [_correlate_raw]
    rw [argmax_delayLeft x hx k]
    rw [show ((x.length - 1 + k : ℕ) : ℤ) - (((x.length : ℕ) : ℤ) - 1)
        = (k : ℤ) by omega]
    norm_cast
  have hpos : (0 : ℚ) < (k : ℚ) / sr := by
    apply div_pos _ hsr
    exact_mod_cast hk
  exact ⟨hoff1, by rw [hoff1]; linarith, hoff2, by rw [hoff2]; exact hpos⟩

/-- Witness for C5 (amended): `x = [1, 2]`, `k = 1`, `sr = 22050`:
the delayed-mastered offset is `-(1/22050)` and the trimmed-mastered
offset is positive. -/
theorem raw_delay_sign_witness :
    (0 < 1) ∧ ((0 : ℚ) < ANALYSIS_SR) ∧ (∃ v ∈ ([1, 2] : List ℚ), v ≠ 0) ∧
    (_correlate_raw [1, 2] (delayBy 1 [1, 2]) ANALYSIS_SR).offset
      = -(((1 : ℕ) : ℚ) / ANALYSIS_SR) ∧
    0 < (_correlate_raw (delayBy 1 [1, 2]) [1, 2] ANALYSIS_SR).offset := by
  have hx : ∃ v ∈ ([1, 2] : List ℚ), v ≠ 0 := ⟨1, by simp, one_ne_zero⟩
  have h := raw_delay_sign [1, 2] 1 ANALYSIS_SR (by norm_num)
    (by norm_num [ANALYSIS_SR]) hx
  exact ⟨by norm_num, by norm_num [ANALYSIS_SR], hx, h.1, h.2.2.2⟩

/-- C6: correlating a nonzero buffer against an identical copy of
itself yields offset exactly `0`, and the confidence achieved is the
highest attainable for this signal: its numerator is the signal energy
`autocorrShift x 0`, which every correlation entry's magnitude is
bounded by (`|corr[n]| ≤ autocorrShift x 0` at every lag, by
Cauchy–Schwarz), so the peak takes the largest possible value for
signals of this energy. -/
theorem raw_self_identity (x : List ℚ) (sr : ℚ) (hx : ∃ v ∈ x, v ≠ 0) :
    (_correlate_raw x x sr).offset = 0 ∧
    (_correlate_raw x x sr).confidence
      = some (autocorrShift x 0 / npMean (npAbs (crossCorrelate x x))) ∧
    (∀ n : ℤ, |getZ (crossCorrelate x x) n| ≤ autocorrShift x 0) := by
  have hxne : x ≠ [] := by
    rintro rfl
    obtain ⟨v, hv, _⟩ := hx
    cases hv
  have hL : 1 ≤ x.length := List.length_pos.mpr hxne
  have hzero : delayBy 0 x = x := by simp [delayBy]
  have hargmax : argmaxIdx (npAbs (crossCorrelate x x)) = x.length - 1 := by
    have h := argmax_delayRight x hx 0
    rwa [hzero] at h
  have hentry : ∀ n : ℤ, getZ (crossCorrelate x x) n
      = autocorrShift x (n - ((x.length : ℤ) - 1)) := by
    intro n
    have h := crossCorrelate_delay_entry x 0 n
    rwa [hzero] at h
  have hA0 := autocorrShift_zero_pos x hx
  have hpeakval : (crossCorrelate x x).getD (x.length - 1) 0
      = autocorrShift x 0 := by
    rw [← getZ_natCast, hentry,
      show ((x.length - 1 : ℕ) : ℤ) - ((x.length : ℤ) - 1) = 0 by omega]
  refine ⟨?_, ?_, ?_⟩
  · simp only [_correlate_raw]
    rw [hargmax,
      show ((x.length - 1 : ℕ) : ℤ) - (((x.length : ℕ) : ℤ) - 1) = 0 by omega]
    norm_num
  · have hm : npMean (npAbs (crossCorrelate x x)) ≠ 0 := by
      apply npMean_npAbs_ne_zero
      refine ⟨autocorrShift x 0, ?_, hA0.ne'⟩
      have hlt : x.length - 1 < (crossCorrelate x x).length := by
        rw [crossCorrelate_length x x hxne hxne]
        omega
      rw [← hpeakval, List.getD_eq_getElem _ _ hlt]
      exact List.getElem_mem hlt
    simp only [_correlate_raw]
    rw [if_neg hm, hargmax, hpeakval, abs_of_pos hA0]
  · intro n
    rw [hentry n]
    rcases eq_or_ne (n - ((x.length : ℤ) - 1)) 0 with h0 | h0
    · rw [h0, abs_of_pos hA0]
    · exact (autocorrShift_abs_lt x hx h0).le

/-- Witness for C6 at `x = [1, 2]`, `sr = 22050`. -/
theorem raw_self_identity_witness :
    (∃ v ∈ ([1, 2] : List ℚ), v ≠ 0) ∧
    (_correlate_raw [1, 2] [1, 2] ANALYSIS_SR).offset = 0 :=
  ⟨⟨1, by simp, one_ne_zero⟩,
    (raw_self_identity [1, 2] ANALYSIS_SR ⟨1, by simp, one_ne_zero⟩).1⟩

/-- C7: scaling either input by a positive constant `c` changes
neither correlator's detected offset.  For the raw-waveform correlator
this is proved at the sample-buffer level.  For the pitch-content
correlator it is proved at the chroma-transform output level (the
transform itself is the external library call `librosa.feature.chroma_cqt`,
whose output for a scaled buffer is an elementwise-scaled — or, with
its per-frame normalisation, unchanged — chroma matrix): scaling the
matrix elementwise scales the pitch profile and leaves the offset
unchanged. -/
theorem offset_scale_invariant (a b : List ℚ) (chroma1 chroma2 : List (List ℚ))
    (sr hop c : ℚ) (hc : 0 < c) :
    (_correlate_raw (scaleBuf c a) b sr).offset
      = (_correlate_raw a b sr).offset ∧
    (_correlate_raw a (scaleBuf c b) sr).offset
      = (_correlate_raw a b sr).offset ∧
    (_correlate_chroma (scaleChroma c chroma1) chroma2 sr hop).offset
      = (_correlate_chroma chroma1 chroma2 sr hop).offset ∧
    (_correlate_chroma chroma1 (scaleChroma c chroma2) sr hop).offset
      = (_correlate_chroma chroma1 chroma2 sr hop).offset := by
  refine ⟨?_, ?_, ?_, ?_⟩
  · simp only [_correlate_raw, crossCorrelate_scale_left,
      npAbs_map_mul c hc.le, argmaxIdx_map_mul c hc]
  · simp only [_correlate_raw, crossCorrelate_scale_right,
      npAbs_map_mul c hc.le, argmaxIdx_map_mul c hc, scaleBuf_length]
  · simp only [_correlate_chroma, energy_scaleChroma]
    rw [show ((chroma1.map List.sum).map (fun x => c * x))
        = scaleBuf c (chroma1.map List.sum) from rfl,
      crossCorrelate_scale_left, argmaxIdx_map_mul c hc]
  · simp only [_correlate_chroma, energy_scaleChroma]
    rw [show ((chroma2.map List.sum).map (fun x => c * x))
        = scaleBuf c (chroma2.map List.sum) from rfl,
      crossCorrelate_scale_right, argmaxIdx_map_mul c hc,
      scaleBuf, List.length_map]

/-- Witness for C7: scaling by `c = 2` leaves both correlators' offsets
unchanged on the buffers `[1, 2]`, `[3, 4]` and the chroma matrices
`[[1, 2]]`, `[[3]]`. -/
theorem offset_scale_invariant_witness :
    (0 : ℚ) < 2 ∧
    (_correlate_raw (scaleBuf 2 [1, 2]) [3, 4] ANALYSIS_SR).offset
      = (_correlate_raw [1, 2] [3, 4] ANALYSIS_SR).offset :=
  ⟨by norm_num,
    (offset_scale_invariant [1, 2] [3, 4] [[1, 2]] [[3]]
      ANALYSIS_SR HOP_LENGTH 2 (by norm_num)).1⟩

/-- C10: for inputs whose cross-correlation has a nonzero entry,
scaling either buffer by a positive constant `c` leaves the
raw-waveform confidence EXACTLY unchanged: `c` multiplies both the
peak absolute correlation and the mean absolute correlation and
cancels in their ratio. -/
theorem raw_confidence_scale_invariant (a b : List ℚ) (sr c : ℚ)
    (hc : 0 < c) (hnz : ∃ v ∈ crossCorrelate a b, v ≠ 0) :
    (_correlate_raw (scaleBuf c a) b sr).confidence
      = (_correlate_raw a b sr).confidence ∧
    (_correlate_raw a (scaleBuf c b) sr).confidence
      = (_correlate_raw a b sr).confidence := by
  have hm := npMean_npAbs_ne_zero (crossCorrelate a b) hnz
  constructor
  · simp only [_correlate_raw, crossCorrelate_scale_left,
      npAbs_map_mul c hc.le, argmaxIdx_map_mul c hc, npMean_map_mul,
      getD_map_mul]
    rw [if_neg (mul_ne_zero hc.ne' hm), if_neg hm]
    congr 1
    rw [abs_mul, abs_of_nonneg hc.le, mul_div_mul_left _ _ hc.ne']
  · simp only [_correlate_raw, crossCorrelate_scale_right,
      npAbs_map_mul c hc.le, argmaxIdx_map_mul c hc, npMean_map_mul,
      getD_map_mul, scaleBuf_length]
    rw [if_neg (mul_ne_zero hc.ne' hm), if_neg hm]
    congr 1
    rw [abs_mul, abs_of_nonneg hc.le, mul_div_mul_left _ _ hc.ne']

/-- Witness for C10: with buffers `[1, 2]`, `[3, 4]` (whose
cross-correlation `[4, 11, 6]` has nonzero entries) and `c = 2`, the
confidence is unchanged. -/
theorem raw_confidence_scale_invariant_witness :
    (0 : ℚ) < 2 ∧ (∃ v ∈ crossCorrelate [1, 2] [3, 4], v ≠ 0) ∧
    (_correlate_raw (scaleBuf 2 [1, 2]) [3, 4] ANALYSIS_SR).confidence
      = (_correlate_raw [1, 2] [3, 4] ANALYSIS_SR).confidence := by
  have hnz : ∃ v ∈ crossCorrelate ([1, 2] : List ℚ) [3, 4], v ≠ 0 := by
    refine ⟨4, ?_, by norm_num⟩
    norm_num [crossCorrelate, conv, listAdd]
  exact ⟨by norm_num, hnz,
    (raw_confidence_scale_invariant [1, 2] [3, 4] ANALYSIS_SR 2
      (by norm_num) hnz).1⟩

lemma bytesToF32_length : ∀ (out : List ℕ)
    (samples : List (ℕ × ℕ × ℕ × ℕ)), bytesToF32 out = some samples →
    samples.length = out.length / 4
  | [], samples, h => by
      rw [bytesToF32] at h
      cases h
      rfl
  | [_], samples, h => by
      rw [bytesToF32] at h
      cases h
  | [_, _], samples, h => by
      rw [bytesToF32] at h
      cases h
  | [_, _, _], samples, h => by
      rw [bytesToF32] at h
      cases h
  | b0 :: b1 :: b2 :: b3 :: rest, samples, h => by
      rw [bytesToF32] at h
      cases hr : bytesToF32 rest with
      | none => rw [hr] at h; cases h
      | some l =>
          rw [hr] at h
          have hs : samples = (b0, b1, b2, b3) :: l := by
            cases h
            rfl
          have hrec := bytesToF32_length rest l hr
          rw [hs, List.length_cons, hrec]
          simp only [List.length_cons]
          omega

/-- C8 counterexample: a decode subprocess that exits with code 0 and
writes nothing to stdout makes `_extract_audio_ffmpeg` return — as a
success — the EMPTY sample buffer: the function performs no
non-emptiness check before handing the buffer to the correlators. -/
theorem extract_success_can_be_empty :
    _extract_audio_ffmpeg 0 [] "" = Except.ok [] := rfl

/-- C8 amended: on a successful decode (exit code 0, byte count a
multiple of the float32 size), `_extract_audio_ffmpeg` returns a buffer
of exactly `len(stdout) / 4` samples; the buffer is non-empty exactly
when ffmpeg wrote at least 4 bytes — non-emptiness is a property of the
subprocess output, not something the function enforces. -/
theorem extract_success_buffer_size (out : List ℕ) (stderr : String)
    (samples : List (ℕ × ℕ × ℕ × ℕ)) (h : bytesToF32 out = some samples) :
    _extract_audio_ffmpeg 0 out stderr = Except.ok samples ∧
    samples.length = out.length / 4 ∧
    (4 ≤ out.length → samples ≠ []) := by
  refine ⟨?_, bytesToF32_length out samples h, ?_⟩
  · rw [_extract_audio_ffmpeg, if_neg (by norm_num), h]
  · intro h4 hnil
    have hlen := bytesToF32_length out samples h
    rw [hnil] at hlen
    simp only [List.length_nil] at hlen
    omega

/-- Witness for C8 (amended): four stdout bytes give exactly one
sample, returned successfully. -/
theorem extract_success_buffer_size_witness :
    bytesToF32 [1, 2, 3, 4] = some [(1, 2, 3, 4)] ∧
    _extract_audio_ffmpeg 0 [1, 2, 3, 4] "" = Except.ok [(1, 2, 3, 4)] ∧
    ([(1, 2, 3, 4)] : List (ℕ × ℕ × ℕ × ℕ)).length = [1, 2, 3, 4].length / 4 :=
  ⟨rfl, (extract_success_buffer_size [1, 2, 3, 4] "" [(1, 2, 3, 4)] rfl).1,
    (extract_success_buffer_size [1, 2, 3, 4] "" [(1, 2, 3, 4)] rfl).2.1⟩

/-- C9: after `find_offset` returns, the CLI warns exactly when the
confidence is strictly below `3`, and proceeds to the merge step in
every case — a low confidence never fails the request. -/
theorem cli_low_confidence_spec (c : ℚ) :
    (cli_warns_low_confidence c = true ↔ c < 3) ∧
    cli_proceeds_to_merge c = true := by
  refine ⟨?_, rfl⟩
  simp [cli_warns_low_confidence]

/-- Witness for C9: at confidence `2` the CLI warns and still merges;
at confidence `3` it does not warn and merges. -/
theorem cli_low_confidence_spec_witness :
    cli_warns_low_confidence 2 = true ∧ cli_proceeds_to_merge 2 = true ∧
    cli_warns_low_confidence 3 = false := by
  refine ⟨(cli_low_confidence_spec 2).1.mpr (by norm_num),
    (cli_low_confidence_spec 2).2, ?_⟩
  have h := (cli_low_confidence_spec 3).1
  by_cases hb : cli_warns_low_confidence 3 = true
  · exfalso; have := h.mp hb; linarith
  · simpa using hb

end AVSync
